import Mathlib

set_option maxHeartbeats 2000000

/-!
Shallow embedding of src/PromiseImpl.js, a Promises/A+ style deferred-value
implementation.  Promises are heap cells indexed by natural numbers; the
closures the source stores in callback registries and hands to setTimeout are
defunctionalized as first-order data; the host setTimeout queue is an explicit
FIFO task list on the machine state.
-/

namespace PromiseSpec

/-- Promise status constants STATUS_PENDING, STATUS_FULFILLED, STATUS_REJECTED. -/
inductive Status where
| pending
| fulfilled
| rejected
deriving DecidableEq

/-- Kind of one synchronous action a foreign thenable performs when its then
member is invoked with the two callbacks: invoke the first callback, invoke the
second callback, or raise an exception out of the then call. -/
inductive FKind where
| fres
| frej
| fthrow
deriving DecidableEq

/-- JavaScript values as the implementation distinguishes them.  A PromiseImpl
instance is a heap reference.  A foreign thenable whose then member is a
function is foreignFn, carrying whether the value itself is a function
(typeof x is function rather than object) and the finite synchronous script
its then member runs when invoked with the two callbacks.  foreignNotFn is an
object or function whose then member exists but is not callable; foreignThrow
is an object or function whose then member access raises.  sRecord is the
settled-outcome record object built by allSettled; tyErr is a TypeError
instance. -/
inductive JVal where
| undef
| nul
| num (n : Int)
| str (s : String)
| tyErr (msg : String)
| arr (elems : List JVal)
| sRecord (st : Status) (payload : JVal)
| promise (id : Nat)
| foreignFn (callable : Bool) (script : List (FKind × JVal))
| foreignNotFn (callable : Bool)
| foreignThrow (callable : Bool) (err : JVal)

/-- Defunctionalized one-argument callbacks: the handler positions of then
calls throughout the source.  ident is the default onFulfilled
(value goes through), rethrow the default onRejected (reason is re-raised);
constH and throwH are user handlers returning or throwing a fixed value;
prpCont is the closure value to promiseResolutionProcedure(promise, value)
from the promise-adoption branch; resolveCap and rejectCap are the closures
invoking the private _resolve and _reject capabilities of a target promise;
mkFulRecord and mkRejRecord build the allSettled outcome records; allCb is the
closure value to processRes(i, value) of one all() invocation. -/
inductive Handler where
| ident
| rethrow
| constH (v : JVal)
| throwH (e : JVal)
| prpCont (target : Nat)
| resolveCap (target : Nat)
| rejectCap (target : Nat)
| mkFulRecord
| mkRejRecord
| allCb (aId : Nat) (idx : Nat)

/-- Defunctionalized unit of deferred work: the closures the source passes to
setTimeout inside then.  Running it reads the value (fromValue true) or the
reason (fromValue false) of the source promise, applies the handler inside a
try, and feeds the outcome to the resolution procedure of the dependent
promise p2 (rejecting p2 on a throw).  The zero-argument closures stored in the
pending-state callback registries only wrap such a task in a setTimeout call,
so the registries store the same data. -/
structure Task where
  handler : Handler
  fromValue : Bool
  src : Nat
  p2 : Nat

/-- Per-promise state: status, value, reason and the two callback registries
of a PromiseImpl instance.  value and reason start as null. -/
structure PObj where
  status : Status
  value : JVal
  reason : JVal
  onFulfilledCbs : List Task
  onRejectedCbs : List Task

/-- Fresh pending promise as the constructor creates it. -/
def blankP : PObj := ⟨Status.pending, JVal.nul, JVal.nul, [], []⟩

instance : Inhabited PObj := ⟨blankP⟩

/-- Closure state of one all() invocation: the res array (a slot per input),
the fulfilledCount counter, the captured iterable.length, and the combined
promise whose capabilities the executor closed over. -/
structure AllSt where
  res : List (Option JVal)
  fulfilledCount : Nat
  total : Nat
  target : Nat

/-- Whole interpreter state: the promise heap, the host setTimeout FIFO queue,
and the closure states of all() invocations. -/
structure Machine where
  heap : List PObj
  tasks : List Task
  allStates : List AllSt

/-- Read a promise cell; out-of-range reads give a blank pending cell (the
source never holds a dangling reference). -/
def getP (M : Machine) (p : Nat) : PObj := M.heap.getD p blankP

/-- Write a promise cell. -/
def setP (M : Machine) (p : Nat) (o : PObj) : Machine :=
  { M with heap := M.heap.set p o }

/-- Observable settled state of a promise: status, value and reason. -/
def tripleOf (M : Machine) (p : Nat) : Status × JVal × JVal :=
  ((getP M p).status, (getP M p).value, (getP M p).reason)

/-- Allocate the fresh pending promise a new PromiseImpl() starts from,
returning its heap index. -/
def newPromise (M : Machine) : Machine × Nat :=
  ({ M with heap := M.heap ++ [blankP] }, M.heap.length)

/-- Internal _reject capability of promise p (lines 158-167): when still
pending, set status rejected, store the reason, and invoke every queued
rejection callback in registration order; each stored callback only calls
setTimeout, so the invocations append the stored tasks to the queue in order.
A no-op when the promise is no longer pending. -/
def rejectP (M : Machine) (p : Nat) (reason : JVal) : Machine :=
  let o := getP M p
  if o.status = Status.pending then
    let M1 := setP M p { o with status := Status.rejected, reason := reason }
    { M1 with tasks := M1.tasks ++ o.onRejectedCbs }
  else M

/-- Method then (lines 178-268): replace non-callable handlers by the identity
and re-raise defaults, create the dependent promise2, and run the executor
synchronously: on a fulfilled source schedule the fulfillment task, on a
rejected source schedule the rejection task, on a pending source append both
tasks to the respective registries.  Handlers are absent (None) when the
caller passed a non-function.  Returns the dependent promise. -/
def thenOp (M : Machine) (src : Nat) (onFulfilled onRejected : Option Handler) :
    Machine × Nat :=
  let onF := onFulfilled.getD Handler.ident
  let onR := onRejected.getD Handler.rethrow
  let r := newPromise M
  let M1 := r.1
  let p2 := r.2
  let o := getP M1 src
  match o.status with
  | Status.fulfilled => ({ M1 with tasks := M1.tasks ++ [⟨onF, true, src, p2⟩] }, p2)
  | Status.rejected => ({ M1 with tasks := M1.tasks ++ [⟨onR, false, src, p2⟩] }, p2)
  | Status.pending =>
      (setP M1 src
        { o with
          onFulfilledCbs := o.onFulfilledCbs ++ [⟨onF, true, src, p2⟩],
          onRejectedCbs := o.onRejectedCbs ++ [⟨onR, false, src, p2⟩] }, p2)

/-- Internal _resolve capability of promise p (lines 135-153): a nested
promise is not stored but adopted by registering continuations that re-invoke
the capabilities with its eventual outcome (the source returns the promise
that value.then produces); otherwise, when still pending, set status
fulfilled, store the value, and invoke every queued fulfillment callback in
registration order, which appends the stored tasks to the queue.  A no-op when
the promise is no longer pending.  Returns the returned JS value. -/
def resolveP (M : Machine) (p : Nat) (value : JVal) : Machine × JVal :=
  match value with
  | JVal.promise q =>
      let r := thenOp M q (some (Handler.resolveCap p)) (some (Handler.rejectCap p))
      (r.1, JVal.promise r.2)
  | _ =>
      let o := getP M p
      if o.status = Status.pending then
        let M1 := setP M p { o with status := Status.fulfilled, value := value }
        ({ M1 with tasks := M1.tasks ++ o.onFulfilledCbs }, JVal.undef)
      else (M, JVal.undef)

/-- Closure state update processRes(index, value) of one all() invocation
(lines 309-315): store the value in its slot, count it, and resolve the
combined promise with the collected array once every slot has reported. -/
def processRes (M : Machine) (aId idx : Nat) (value : JVal) : Machine :=
  let a := M.allStates.getD aId ⟨[], 0, 0, 0⟩
  let a1 := { a with
    res := a.res.set idx (some value),
    fulfilledCount := a.fulfilledCount + 1 }
  let M1 := { M with allStates := M.allStates.set aId a1 }
  if a1.fulfilledCount = a1.total then
    (resolveP M1 a1.target (JVal.arr (a1.res.map (fun o => o.getD JVal.undef)))).1
  else M1

/-- Message of the TypeError the self-resolution branch raises (line 25). -/
def selfResolutionMsg : String :=
  "`promise` and `x` refer to the same object, see: https://promisesaplus.com/#point-48"

mutual

/-- Resolution procedure promiseResolutionProcedure(promise, x, resolve,
reject) (lines 21-115).  At every call site the resolve and reject arguments
are the private capabilities of the target promise itself, so they are
represented by the target index.  A candidate that is the target itself is
rejected with a TypeError (the identity test promise === x can only hold for
a promise reference with the same index); a promise candidate is adopted
through its then method; an object or function whose then member is callable
is driven by invoking that member, whose two callbacks share one called flag;
an exception from the then member access rejects the target; every other
candidate (primitive, array, record, TypeError instance, object or function
without a callable then) fulfills the target through resolve(x).  Returns the
returned JS value. -/
def promiseResolutionProcedure (M : Machine) (target : Nat) (x : JVal) :
    Machine × JVal :=
  match x with
  | JVal.promise q =>
      if q = target then
        (rejectP M target (JVal.tyErr selfResolutionMsg), JVal.undef)
      else
        let r := thenOp M q (some (Handler.prpCont target)) (some (Handler.rejectCap target))
        (r.1, JVal.promise r.2)
  | JVal.foreignFn _ script =>
      let r := prpScript M target script false
      match r.2.2 with
      | some e => if r.2.1 then (r.1, JVal.undef) else (rejectP r.1 target e, JVal.undef)
      | none => (r.1, JVal.undef)
  | JVal.foreignThrow _ e => (rejectP M target e, JVal.undef)
  | _ => ((resolveP M target x).1, JVal.undef)

/-- Synchronous run of a foreign then member under the shared once-guard
(lines 40-88): the flag starts false, the first callback invocation wins and
flips it, later invocations of either callback return immediately, and an
exception aborts the remaining script and is reported together with the flag
so the surrounding catch can ignore it when a callback already fired.  The
first callback recurses into the resolution procedure with the supplied value;
the second rejects the target directly. -/
def prpScript (M : Machine) (target : Nat) (acts : List (FKind × JVal))
    (called : Bool) : Machine × Bool × Option JVal :=
  match acts with
  | [] => (M, called, none)
  | (FKind.fres, y) :: rest =>
      if called then prpScript M target rest called
      else prpScript (promiseResolutionProcedure M target y).1 target rest true
  | (FKind.frej, r) :: rest =>
      if called then prpScript M target rest called
      else prpScript (rejectP M target r) target rest true
  | (FKind.fthrow, e) :: _ => (M, called, some e)

end

/-- Apply a defunctionalized handler to an argument: the machine after its
side effects, and either its returned value or the value it threw. -/
def evalHandler (M : Machine) (h : Handler) (arg : JVal) :
    Machine × Except JVal JVal :=
  match h with
  | Handler.ident => (M, Except.ok arg)
  | Handler.rethrow => (M, Except.error arg)
  | Handler.constH v => (M, Except.ok v)
  | Handler.throwH e => (M, Except.error e)
  | Handler.prpCont target =>
      let r := promiseResolutionProcedure M target arg
      (r.1, Except.ok r.2)
  | Handler.resolveCap target =>
      let r := resolveP M target arg
      (r.1, Except.ok r.2)
  | Handler.rejectCap target => (rejectP M target arg, Except.ok JVal.undef)
  | Handler.mkFulRecord => (M, Except.ok (JVal.sRecord Status.fulfilled arg))
  | Handler.mkRejRecord => (M, Except.ok (JVal.sRecord Status.rejected arg))
  | Handler.allCb aId idx => (processRes M aId idx arg, Except.ok JVal.undef)

/-- Synchronous run of a foreign then member invoked directly with two plain
callbacks and no once-guard, as static resolve and the combinators do: each
script action invokes the corresponding callback, an exception aborts the
remaining script and is returned. -/
def callForeignThen (M : Machine) (script : List (FKind × JVal))
    (hF hR : Handler) : Machine × Option JVal :=
  match script with
  | [] => (M, none)
  | (FKind.fres, y) :: rest => callForeignThen (evalHandler M hF y).1 rest hF hR
  | (FKind.frej, r) :: rest => callForeignThen (evalHandler M hR r).1 rest hF hR
  | (FKind.fthrow, e) :: _ => (M, some e)

/-- Run of one deferred unit of work: read the source value or reason, apply
the handler inside a try, and feed a normal return to the resolution
procedure of the dependent promise, or reject the dependent promise with a
thrown value (lines 196-256). -/
def runTask (M : Machine) (t : Task) : Machine :=
  let o := getP M t.src
  let arg := if t.fromValue then o.value else o.reason
  let r := evalHandler M t.handler arg
  match r.2 with
  | Except.ok x => (promiseResolutionProcedure r.1 t.p2 x).1
  | Except.error e => rejectP r.1 t.p2 e

/-- Host scheduler step: run the first queued task, if any. -/
def step (M : Machine) : Machine :=
  match M.tasks with
  | [] => M
  | t :: rest => runTask { M with tasks := rest } t

/-- Run n host scheduler steps. -/
def run : Nat → Machine → Machine
  | 0, M => M
  | n + 1, M => run n (step M)

/-- Iterability test isIterable (line 17): a truthy value with a callable
Symbol.iterator member, so arrays and non-empty strings (the empty string is
falsy). -/
def isIterable : JVal → Bool
  | JVal.arr _ => true
  | JVal.str s => s ≠ ""
  | _ => false

/-- Elements an iterable presents in index order. -/
def toElems : JVal → List JVal
  | JVal.arr l => l
  | JVal.str s => s.toList.map (fun c => JVal.str (String.mk [c]))
  | _ => []

/-- Result of the typeof operator on a modelled value. -/
def typeofStr : JVal → String
  | JVal.undef => "undefined"
  | JVal.nul => "object"
  | JVal.num _ => "number"
  | JVal.str _ => "string"
  | JVal.tyErr _ => "object"
  | JVal.arr _ => "object"
  | JVal.sRecord _ _ => "object"
  | JVal.promise _ => "object"
  | JVal.foreignFn c _ => if c then "function" else "object"
  | JVal.foreignNotFn c => if c then "function" else "object"
  | JVal.foreignThrow c _ => if c then "function" else "object"

/-- TypeError value the combinators return on a non-iterable input
(lines 297, 338, 365). -/
def notIterableErr (iterable : JVal) : JVal :=
  JVal.tyErr ("TypeError: " ++ typeofStr iterable ++
    " is not iterable (cannot read property Symbol(Symbol.iterator))")

/-- Static resolve (lines 270-289): a promise is returned unchanged; a
non-null object with a callable then member is wrapped in a new promise whose
executor invokes that member with the two capabilities (no once-guard); any
other value, including a function with a callable then member, fulfills a new
promise directly.  Accessing the then member of an object can throw, and that
exception propagates to the caller of resolve; for a function the typeof test
fails first and the member is never read.  Returns the heap index of the
resulting promise, or the thrown value. -/
def resolveStatic (M : Machine) (value : JVal) : Machine × Except JVal Nat :=
  match value with
  | JVal.promise q => (M, Except.ok q)
  | JVal.foreignThrow false e => (M, Except.error e)
  | JVal.foreignFn false script =>
      let r := newPromise M
      let s := callForeignThen r.1 script (Handler.resolveCap r.2) (Handler.rejectCap r.2)
      match s.2 with
      | some e => (rejectP s.1 r.2 e, Except.ok r.2)
      | none => (s.1, Except.ok r.2)
  | _ =>
      let r := newPromise M
      ((resolveP r.1 r.2 value).1, Except.ok r.2)

/-- Static reject (lines 291-293): a new promise immediately rejected with
the reason. -/
def rejectStatic (M : Machine) (reason : JVal) : Machine × Nat :=
  let r := newPromise M
  (rejectP r.1 r.2 reason, r.2)

/-- Element scan of all() (lines 320-331): an element with a callable then
member (a promise of this system or a foreign thenable) registers the
processRes continuation for its slot and the combined rejection callback;
reading the then member of a hostile object can throw, aborting the scan with
the exception; every other element has already fulfilled at its own index.
The index i counts the slots. -/
def allLoop (M : Machine) (aId p2 i : Nat) (elems : List JVal) :
    Machine × Option JVal :=
  match elems with
  | [] => (M, none)
  | JVal.promise q :: rest =>
      let r := thenOp M q (some (Handler.allCb aId i)) (some (Handler.rejectCap p2))
      allLoop r.1 aId p2 (i + 1) rest
  | JVal.foreignFn _c script :: rest =>
      let r := callForeignThen M script (Handler.allCb aId i) (Handler.rejectCap p2)
      match r.2 with
      | some e => (r.1, some e)
      | none => allLoop r.1 aId p2 (i + 1) rest
  | JVal.foreignThrow _ e :: _ => (M, some e)
  | e :: rest => allLoop (processRes M aId i e) aId p2 (i + 1) rest

/-- Static all (lines 295-334): a non-iterable input returns a TypeError
value synchronously; otherwise a combined promise is created with fresh
closure state, an empty input resolves it with an empty array at once, and
the element scan wires every slot; an exception the scan raises inside the
executor is caught by the constructor and rejects the combined promise. -/
def allStatic (M : Machine) (iterable : JVal) : Machine × JVal :=
  if isIterable iterable = false then (M, notIterableErr iterable)
  else
    let elems := toElems iterable
    let r := newPromise M
    let aId := r.1.allStates.length
    let M2 := { r.1 with
      allStates := r.1.allStates ++
        [⟨List.replicate elems.length none, 0, elems.length, r.2⟩] }
    if elems.length = 0 then
      ((resolveP M2 r.2 (JVal.arr [])).1, JVal.promise r.2)
    else
      match allLoop M2 aId r.2 0 elems with
      | (M3, some e) => (rejectP M3 r.2 e, JVal.promise r.2)
      | (M3, none) => (M3, JVal.promise r.2)

/-- Static race (lines 336-361): a non-iterable input returns a TypeError
value synchronously; an empty input leaves the fresh promise pending forever
(the executor returns without invoking a capability); otherwise only the
first element is examined: an element with a callable then member forwards
its outcome to the capabilities, any other element resolves the promise
directly, and the scan returns after that first element in every branch. -/
def raceStatic (M : Machine) (iterable : JVal) : Machine × JVal :=
  if isIterable iterable = false then (M, notIterableErr iterable)
  else
    let r := newPromise M
    match toElems iterable with
    | [] => (r.1, JVal.promise r.2)
    | JVal.promise q :: _ =>
        ((thenOp r.1 q (some (Handler.resolveCap r.2)) (some (Handler.rejectCap r.2))).1,
          JVal.promise r.2)
    | JVal.foreignFn _ script :: _ =>
        let s := callForeignThen r.1 script (Handler.resolveCap r.2) (Handler.rejectCap r.2)
        (match s.2 with
         | some e => rejectP s.1 r.2 e
         | none => s.1, JVal.promise r.2)
    | JVal.foreignThrow _ e :: _ => (rejectP r.1 r.2 e, JVal.promise r.2)
    | e :: _ => ((resolveP r.1 r.2 e).1, JVal.promise r.2)

/-- Element scan of allSettled (lines 368-376): each input goes through
static resolve (whose exception, if any, propagates to the caller) and a then
call producing its settled-outcome record promise; the record promises are
collected in input order. -/
def allSettledLoop (M : Machine) (elems : List JVal) (acc : List JVal) :
    Machine × Except JVal (List JVal) :=
  match elems with
  | [] => (M, Except.ok acc.reverse)
  | e :: rest =>
      match resolveStatic M e with
      | (M1, Except.error ex) => (M1, Except.error ex)
      | (M1, Except.ok q) =>
          let r := thenOp M1 q (some Handler.mkFulRecord) (some Handler.mkRejRecord)
          allSettledLoop r.1 rest (JVal.promise r.2 :: acc)

/-- Static allSettled (lines 363-379): a non-iterable input returns a
TypeError value synchronously (as a normal return); otherwise every input is
mapped to a settled-outcome record promise and the result delegates to all
over those records.  An exception from a hostile then member access inside
static resolve propagates to the caller. -/
def allSettledStatic (M : Machine) (iterable : JVal) : Machine × Except JVal JVal :=
  if isIterable iterable = false then (M, Except.ok (notIterableErr iterable))
  else
    match allSettledLoop M (toElems iterable) [] with
    | (M1, Except.error ex) => (M1, Except.error ex)
    | (M1, Except.ok promises) =>
        let r := allStatic M1 (JVal.arr promises)
        (r.1, Except.ok r.2)

/-- Test for a promise reference, the one candidate shape the instanceof
checks of the resolution branch distinguish. -/
def isPromiseV : JVal → Bool
  | JVal.promise _ => true
  | _ => false

/-- Plain candidate for the resolution procedure: neither a promise of this
system, nor an object or function with a callable then member, nor one whose
then member access throws; such a candidate always fulfills the target
directly. -/
def plainVal : JVal → Bool
  | JVal.promise _ => false
  | JVal.foreignFn _ _ => false
  | JVal.foreignThrow _ _ => false
  | _ => true

/-- Plain argument for static resolve: a value that is neither a promise nor
an object thenable nor an object whose then member access throws, so that
static resolve wraps it in an immediately fulfilled promise. -/
def plainForResolve : JVal → Bool
  | JVal.promise _ => false
  | JVal.foreignFn false _ => false
  | JVal.foreignThrow false _ => false
  | _ => true

/-- Machine holding one already fulfilled promise. -/
def settledM : Machine :=
  ⟨[⟨Status.fulfilled, JVal.num 7, JVal.nul, [], []⟩], [], []⟩

/-- Machine holding two pending promises with empty registries. -/
def twoPendingM : Machine := ⟨[blankP, blankP], [], []⟩

/-- Empty machine. -/
def emptyM : Machine := ⟨[], [], []⟩

/-- Machine holding one already rejected promise. -/
def rejectedM : Machine :=
  ⟨[⟨Status.rejected, JVal.nul, JVal.str "nope", [], []⟩], [], []⟩

/-- A function-valued foreign thenable whose then member, when invoked, calls
its first callback with 42. -/
def fnThenable : JVal := JVal.foreignFn true [(FKind.fres, JVal.num 42)]

/-! Helper lemmas: reading and writing the heap, and preservation of the
settled observable state (status, value, reason) of every already-settled
promise by every operation of the interpreter. -/

lemma getP_setP_ne {M : Machine} {q p : Nat} (o : PObj) (h : q ≠ p) :
    getP (setP M q o) p = getP M p := by
  simp [getP, setP, List.getD, List.getElem?_set_ne h]

lemma getP_setP_self {M : Machine} {q : Nat} (o : PObj) (h : q < M.heap.length) :
    getP (setP M q o) q = o := by
  simp [getP, setP, List.getD, List.getElem?_set_self, h]

lemma getP_heap_append {M : Machine} {p : Nat} (l : List PObj) (h : p < M.heap.length) :
    getP { M with heap := M.heap ++ l } p = getP M p := by
  simp [getP, List.getD, List.getElem?_append, h]

lemma getP_heap_append_fresh (M : Machine) (o : PObj) :
    getP { M with heap := M.heap ++ [o] } M.heap.length = o := by
  simp [getP, List.getD]

lemma getP_tasks (M : Machine) (ts : List Task) (p : Nat) :
    getP { M with tasks := ts } p = getP M p := rfl

lemma getP_allStates (M : Machine) (a : List AllSt) (p : Nat) :
    getP { M with allStates := a } p = getP M p := rfl

lemma settled_lt {M : Machine} {p : Nat} (h : (getP M p).status ≠ Status.pending) :
    p < M.heap.length := by
  by_contra hlt
  push_neg at hlt
  have hnone : M.heap[p]? = none := List.getElem?_eq_none hlt
  simp [getP, List.getD, hnone, blankP] at h

/-- A machine transition keeps every settled promise untouched: any promise
whose status is no longer pending has the same status, value and reason
afterwards. -/
def KeepsSettled (M M' : Machine) : Prop :=
  ∀ p, (getP M p).status ≠ Status.pending → tripleOf M' p = tripleOf M p

lemma KeepsSettled.rfl (M : Machine) : KeepsSettled M M := fun _ _ => Eq.refl _

lemma KeepsSettled.status_eq {M M' : Machine} (h : KeepsSettled M M') (p : Nat)
    (hp : (getP M p).status ≠ Status.pending) :
    (getP M' p).status = (getP M p).status :=
  congrArg Prod.fst (h p hp)

lemma KeepsSettled.trans {M M' M'' : Machine} (h1 : KeepsSettled M M')
    (h2 : KeepsSettled M' M'') : KeepsSettled M M'' := by
  intro p hp
  have hs : (getP M' p).status = (getP M p).status := h1.status_eq p hp
  have hp' : (getP M' p).status ≠ Status.pending := by rw [hs]; exact hp
  rw [h2 p hp', h1 p hp]

/-- Writing a cell without changing its status, value or reason keeps every
settled promise untouched. -/
lemma KeepsSettled.setP_same {M : Machine} {q : Nat} {o : PObj}
    (hs : o.status = (getP M q).status) (hv : o.value = (getP M q).value)
    (hr : o.reason = (getP M q).reason) : KeepsSettled M (setP M q o) := by
  intro p _
  rcases eq_or_ne q p with rfl | h
  · by_cases hlen : q < M.heap.length
    · simp [tripleOf, getP_setP_self o hlen, hs, hv, hr]
    · push_neg at hlen
      simp [tripleOf, getP, setP, List.set_eq_of_length_le hlen]
  · simp [tripleOf, getP_setP_ne o h]

/-- Settling a cell keeps every other promise, and a settled cell itself is
protected by the pending guard. -/
lemma KeepsSettled.settle {M : Machine} {q : Nat} {o : PObj} (ts : List Task)
    (hq : (getP M q).status = Status.pending) :
    KeepsSettled M { setP M q o with tasks := ts } := by
  intro p hp
  have hne : q ≠ p := by
    intro h
    rw [h] at hq
    exact hp hq
  have : getP { setP M q o with tasks := ts } p = getP M p := by
    rw [show ({ setP M q o with tasks := ts } : Machine)
        = { (setP M q o) with tasks := ts } from Eq.refl _]
    rw [getP_tasks, getP_setP_ne o hne]
  simp [tripleOf, this]

lemma kept_rejectP (M : Machine) (p : Nat) (r : JVal) :
    KeepsSettled M (rejectP M p r) := by
  unfold rejectP
  by_cases h : (getP M p).status = Status.pending
  · simp only [h, if_true]
    exact KeepsSettled.settle _ h
  · simp only [h, if_false]
    exact KeepsSettled.rfl M

lemma kept_newPromise (M : Machine) : KeepsSettled M (newPromise M).1 := by
  intro p hp
  have hlt : p < M.heap.length := settled_lt hp
  simp [tripleOf, newPromise, getP_heap_append _ hlt]

lemma kept_thenOp (M : Machine) (src : Nat) (hF hR : Option Handler) :
    KeepsSettled M (thenOp M src hF hR).1 := by
  unfold thenOp
  have h1 : KeepsSettled M (newPromise M).1 := kept_newPromise M
  cases hst : (getP (newPromise M).1 src).status with
  | fulfilled =>
      simp only [hst]
      exact h1.trans (fun p hp => by simp [tripleOf, getP_tasks])
  | rejected =>
      simp only [hst]
      exact h1.trans (fun p hp => by simp [tripleOf, getP_tasks])
  | pending =>
      simp only [hst]
      exact h1.trans (KeepsSettled.setP_same hst.symm (Eq.refl _) (Eq.refl _))

lemma kept_resolveP (M : Machine) (p : Nat) (v : JVal) :
    KeepsSettled M (resolveP M p v).1 := by
  cases v
  case promise q =>
    simp only [resolveP]
    exact kept_thenOp M q _ _
  all_goals
    simp only [resolveP]
    by_cases h : (getP M p).status = Status.pending
  all_goals simp only [h, if_true, if_false]
  all_goals first
    | exact KeepsSettled.settle _ h
    | exact KeepsSettled.rfl M

lemma kept_processRes (M : Machine) (aId idx : Nat) (v : JVal) :
    KeepsSettled M (processRes M aId idx v) := by
  have hbase : ∀ (a : List AllSt), KeepsSettled M { M with allStates := a } :=
    fun a p hp => by simp [tripleOf, getP_allStates]
  simp only [processRes]
  split
  · exact (hbase _).trans (kept_resolveP _ _ _)
  · exact hbase _

lemma kept_prp (M : Machine) (target : Nat) (x : JVal) :
    KeepsSettled M (promiseResolutionProcedure M target x).1 := by
  refine promiseResolutionProcedure.induct
    (fun M target x => KeepsSettled M (promiseResolutionProcedure M target x).1)
    (fun M target acts called => KeepsSettled M (prpScript M target acts called).1)
    ?_ ?_ ?_ ?_ ?_ ?_ ?_ ?_ ?_ ?_ ?_ ?_ ?_ M target x
  · intro M q
    simp only [promiseResolutionProcedure, if_pos rfl]
    exact kept_rejectP _ _ _
  · intro M target q hq
    simp only [promiseResolutionProcedure, if_neg hq]
    exact kept_thenOp _ _ _ _
  · intro M target callable script r e h1 h2 ih
    have h1a : (prpScript M target script false).2.2 = some e := h1
    have h2a : (prpScript M target script false).2.1 = true := h2
    simp only [promiseResolutionProcedure, h1a, h2a, if_true]
    exact ih
  · intro M target callable script r e h1 h2 ih
    have h1a : (prpScript M target script false).2.2 = some e := h1
    have h2a : ¬(prpScript M target script false).2.1 = true := h2
    simp only [promiseResolutionProcedure, h1a]
    rw [if_neg h2a]
    exact ih.trans (kept_rejectP _ _ _)
  · intro M target callable script r h1 ih
    have h1a : (prpScript M target script false).2.2 = none := h1
    simp only [promiseResolutionProcedure, h1a]
    exact ih
  · intro M target callable e
    simp only [promiseResolutionProcedure]
    exact kept_rejectP _ _ _
  · intro t M target hprom hfn hthrow
    cases t
    case promise q => exact absurd rfl (hprom q)
    case foreignFn c s => exact absurd rfl (hfn c s)
    case foreignThrow c e => exact absurd rfl (hthrow c e)
    all_goals
      simp only [promiseResolutionProcedure]
      exact kept_resolveP _ _ _
  · intro M target called
    exact KeepsSettled.rfl M
  · intro M target y rest ih
    simp only [prpScript, if_true]
    exact ih
  · intro M target called y rest hc ihy ihrest
    simp only [Bool.not_eq_true] at hc
    simp only [prpScript, hc, Bool.false_eq_true, if_false]
    exact ihy.trans ihrest
  · intro M target r rest ih
    simp only [prpScript, if_true]
    exact ih
  · intro M target called r rest hc ihrest
    simp only [Bool.not_eq_true] at hc
    simp only [prpScript, hc, Bool.false_eq_true, if_false]
    exact (kept_rejectP _ _ _).trans ihrest
  · intro M target called e tail
    exact KeepsSettled.rfl M

lemma kept_prpScript (M : Machine) (target : Nat) (acts : List (FKind × JVal))
    (called : Bool) : KeepsSettled M (prpScript M target acts called).1 := by
  induction acts generalizing M called with
  | nil => exact KeepsSettled.rfl M
  | cons a rest ih =>
      obtain ⟨k, y⟩ := a
      cases k
      case fres =>
        by_cases hc : called = true
        · simp only [prpScript, hc, if_true]
          exact ih M true
        · simp only [Bool.not_eq_true] at hc
          simp only [prpScript, hc, Bool.false_eq_true, if_false]
          exact (kept_prp _ _ _).trans (ih _ _)
      case frej =>
        by_cases hc : called = true
        · simp only [prpScript, hc, if_true]
          exact ih M true
        · simp only [Bool.not_eq_true] at hc
          simp only [prpScript, hc, Bool.false_eq_true, if_false]
          exact (kept_rejectP _ _ _).trans (ih _ _)
      case fthrow => exact KeepsSettled.rfl M

lemma kept_evalHandler (M : Machine) (h : Handler) (arg : JVal) :
    KeepsSettled M (evalHandler M h arg).1 := by
  cases h <;> simp only [evalHandler] <;> first
    | exact KeepsSettled.rfl M
    | exact kept_prp _ _ _
    | exact kept_resolveP _ _ _
    | exact kept_rejectP _ _ _
    | exact kept_processRes _ _ _ _

lemma kept_callForeignThen (M : Machine) (script : List (FKind × JVal))
    (hF hR : Handler) : KeepsSettled M (callForeignThen M script hF hR).1 := by
  induction script generalizing M with
  | nil => exact KeepsSettled.rfl M
  | cons a rest ih =>
      obtain ⟨k, y⟩ := a
      cases k
      case fres =>
        simp only [callForeignThen]
        exact (kept_evalHandler _ _ _).trans (ih _)
      case frej =>
        simp only [callForeignThen]
        exact (kept_evalHandler _ _ _).trans (ih _)
      case fthrow => exact KeepsSettled.rfl M

lemma kept_runTask (M : Machine) (t : Task) : KeepsSettled M (runTask M t) := by
  simp only [runTask]
  split
  · exact (kept_evalHandler _ _ _).trans (kept_prp _ _ _)
  · exact (kept_evalHandler _ _ _).trans (kept_rejectP _ _ _)

lemma kept_step (M : Machine) : KeepsSettled M (step M) := by
  simp only [step]
  split
  · exact KeepsSettled.rfl M
  · rename_i t rest heq
    have h1 : KeepsSettled M { M with tasks := rest } :=
      fun p hp => by simp [tripleOf, getP_tasks]
    exact h1.trans (kept_runTask _ _)

lemma kept_run (n : Nat) (M : Machine) : KeepsSettled M (run n M) := by
  induction n generalizing M with
  | zero => exact KeepsSettled.rfl M
  | succ n ih =>
      simp only [run]
      exact (kept_step M).trans (ih _)

/-! Execution equations characterizing single operations, used to settle the
claims both symbolically and on concrete scenarios. -/

lemma getElem_append_blank (l : List PObj) (p : Nat) :
    ((l ++ [blankP])[p]?).getD blankP = (l[p]?).getD blankP := by
  rcases lt_trichotomy p l.length with h | h | h
  · simp [List.getElem?_append, h]
  · subst h
    have h1 : l.length ≤ l.length := Nat.le_refl _
    simp [List.getElem?_concat_length, List.getElem?_eq_none h1]
  · have h1 : l.length ≤ p := le_of_lt h
    have h2 : (l ++ [blankP]).length ≤ p := by
      simp only [List.length_append, List.length_cons, List.length_nil]
      omega
    simp [List.getElem?_eq_none h1, List.getElem?_eq_none h2]

lemma getElem_set_self_pobj (l : List PObj) (i : Nat) (a : PObj)
    (h : i < l.length) : (((l.set i a)[i]?)).getD blankP = a := by
  simp [List.getElem?_set_self, h]

lemma getElem_set_ne_pobj (l : List PObj) (i j : Nat) (a : PObj)
    (h : i ≠ j) : (((l.set i a)[j]?)).getD blankP = (l[j]?).getD blankP := by
  simp [List.getElem?_set_ne h]

lemma getP_append_blank (M : Machine) (p : Nat) :
    getP { M with heap := M.heap ++ [blankP] } p = getP M p := by
  simp [getP, getElem_append_blank]

lemma tripleOf_setP_same {M : Machine} {q : Nat} {o : PObj}
    (hs : o.status = (getP M q).status) (hv : o.value = (getP M q).value)
    (hr : o.reason = (getP M q).reason) (p : Nat) :
    tripleOf (setP M q o) p = tripleOf M p := by
  rcases eq_or_ne q p with rfl | h
  · by_cases hlen : q < M.heap.length
    · simp [tripleOf, getP_setP_self o hlen, hs, hv, hr]
    · push_neg at hlen
      simp [tripleOf, getP, setP, List.set_eq_of_length_le hlen]
  · simp [tripleOf, getP_setP_ne o h]

lemma tripleOf_setP_cbs (M : Machine) (q : Nat) (cf cr : List Task) (p : Nat) :
    tripleOf (setP M q
      { getP M q with onFulfilledCbs := cf, onRejectedCbs := cr }) p
      = tripleOf M p := by
  apply tripleOf_setP_same <;> rfl

lemma tripleOf_thenOp (M : Machine) (src : Nat) (hF hR : Option Handler)
    (p : Nat) : tripleOf (thenOp M src hF hR).1 p = tripleOf M p := by
  have hM1t : ∀ q, tripleOf { M with heap := M.heap ++ [blankP] } q = tripleOf M q :=
    fun q => by simp [tripleOf, getP, getElem_append_blank]
  simp only [thenOp, newPromise]
  split
  · simpa [tripleOf, getP] using hM1t p
  · simpa [tripleOf, getP] using hM1t p
  · exact Eq.trans (tripleOf_setP_cbs _ _ _ _ p) (hM1t p)

lemma thenOp_snd (M : Machine) (src : Nat) (hF hR : Option Handler) :
    (thenOp M src hF hR).2 = M.heap.length := by
  simp only [thenOp, newPromise]
  split <;> rfl

lemma thenOp_tasks (M : Machine) (src : Nat) (hF hR : Option Handler) :
    (thenOp M src hF hR).1.tasks = M.tasks ++
      (match (getP M src).status with
       | Status.fulfilled => [⟨hF.getD Handler.ident, true, src, M.heap.length⟩]
       | Status.rejected => [⟨hR.getD Handler.rethrow, false, src, M.heap.length⟩]
       | Status.pending => []) := by
  simp only [thenOp, newPromise]
  rw [getP_append_blank]
  cases hst : (getP M src).status <;> simp [setP]

lemma thenOp_pending_cbs (M : Machine) (src : Nat) (hF hR : Option Handler)
    (hlen : src < M.heap.length) :
    (getP (thenOp M src hF hR).1 src).onFulfilledCbs =
      (getP M src).onFulfilledCbs ++
        (match (getP M src).status with
         | Status.pending => [⟨hF.getD Handler.ident, true, src, M.heap.length⟩]
         | _ => []) ∧
    (getP (thenOp M src hF hR).1 src).onRejectedCbs =
      (getP M src).onRejectedCbs ++
        (match (getP M src).status with
         | Status.pending => [⟨hR.getD Handler.rethrow, false, src, M.heap.length⟩]
         | _ => []) := by
  have hlen1 : src < (M.heap ++ [blankP]).length := by
    simp only [List.length_append, List.length_cons, List.length_nil]
    omega
  simp only [thenOp, newPromise]
  rw [getP_append_blank]
  cases hst : (getP M src).status <;>
    simp [getP, setP, getElem_append_blank, getElem_set_self_pobj _ _ _ hlen1]

lemma rejectP_eq (M : Machine) (p : Nat) (r : JVal) :
    rejectP M p r =
      if (getP M p).status = Status.pending then
        { setP M p { getP M p with status := Status.rejected, reason := r } with
          tasks := M.tasks ++ (getP M p).onRejectedCbs }
      else M := rfl

lemma resolveP_not_promise {v : JVal} (M : Machine) (p : Nat)
    (h : isPromiseV v = false) :
    resolveP M p v =
      if (getP M p).status = Status.pending then
        ({ setP M p { getP M p with status := Status.fulfilled, value := v } with
           tasks := M.tasks ++ (getP M p).onFulfilledCbs }, JVal.undef)
      else (M, JVal.undef) := by
  cases v <;> first
    | exact Bool.noConfusion h
    | (by_cases hc : (getP M p).status = Status.pending <;>
        simp [resolveP, setP, hc])

lemma getP_rejectP_self (M : Machine) (p : Nat) (r : JVal)
    (hp : (getP M p).status = Status.pending) (hlen : p < M.heap.length) :
    getP (rejectP M p r) p =
      { getP M p with status := Status.rejected, reason := r } := by
  rw [rejectP_eq, if_pos hp]
  exact getP_setP_self _ hlen

lemma getP_resolveP_self {v : JVal} (M : Machine) (p : Nat)
    (h : isPromiseV v = false) (hp : (getP M p).status = Status.pending)
    (hlen : p < M.heap.length) :
    getP (resolveP M p v).1 p =
      { getP M p with status := Status.fulfilled, value := v } := by
  rw [resolveP_not_promise M p h, if_pos hp]
  exact getP_setP_self _ hlen

lemma tripleOf_rejectP_ne (M : Machine) (p : Nat) (r : JVal) (q : Nat)
    (hq : q ≠ p) : tripleOf (rejectP M p r) q = tripleOf M q := by
  rw [rejectP_eq]
  by_cases hp : (getP M p).status = Status.pending
  · rw [if_pos hp]
    simp [tripleOf, getP, setP, getElem_set_ne_pobj _ _ _ _ (Ne.symm hq)]
  · rw [if_neg hp]

lemma tripleOf_resolveP_ne (M : Machine) (p : Nat) (v : JVal) (q : Nat)
    (hq : q ≠ p) : tripleOf (resolveP M p v).1 q = tripleOf M q := by
  cases v
  case promise u => exact tripleOf_thenOp M u _ _ q
  all_goals
    simp only [resolveP, setP]
    by_cases hp : (getP M p).status = Status.pending
  all_goals first
    | (rw [if_neg hp])
    | (rw [if_pos hp]
       simp [tripleOf, getP, getElem_set_ne_pobj _ _ _ _ (Ne.symm hq)])

lemma prpScript_true_fst (M : Machine) (t : Nat) (acts : List (FKind × JVal)) :
    (prpScript M t acts true).1 = M := by
  induction acts with
  | nil => rfl
  | cons a rest ih =>
      obtain ⟨k, y⟩ := a
      cases k <;> simp [prpScript, ih]

lemma prpScript_true_called (M : Machine) (t : Nat) (acts : List (FKind × JVal)) :
    (prpScript M t acts true).2.1 = true := by
  induction acts with
  | nil => rfl
  | cons a rest ih =>
      obtain ⟨k, y⟩ := a
      cases k <;> simp [prpScript, ih]

lemma prp_self (M : Machine) (t : Nat) :
    promiseResolutionProcedure M t (JVal.promise t) =
      (rejectP M t (JVal.tyErr selfResolutionMsg), JVal.undef) := by
  simp [promiseResolutionProcedure]

lemma prp_promise_ne (M : Machine) (t q : Nat) (h : q ≠ t) :
    promiseResolutionProcedure M t (JVal.promise q) =
      ((thenOp M q (some (Handler.prpCont t)) (some (Handler.rejectCap t))).1,
        JVal.promise (thenOp M q (some (Handler.prpCont t)) (some (Handler.rejectCap t))).2) := by
  simp [promiseResolutionProcedure, h]

lemma prp_plain {v : JVal} (M : Machine) (t : Nat) (h : plainVal v = true) :
    promiseResolutionProcedure M t v = ((resolveP M t v).1, JVal.undef) := by
  cases v <;> first
    | rfl
    | simp [plainVal] at h

lemma prp_foreignFn_fres (M : Machine) (t : Nat) (b : Bool) (y : JVal)
    (rest : List (FKind × JVal)) :
    promiseResolutionProcedure M t (JVal.foreignFn b ((FKind.fres, y) :: rest)) =
      ((promiseResolutionProcedure M t y).1, JVal.undef) := by
  have hfst := prpScript_true_fst (promiseResolutionProcedure M t y).1 t rest
  have hcal := prpScript_true_called (promiseResolutionProcedure M t y).1 t rest
  simp only [promiseResolutionProcedure, prpScript, Bool.false_eq_true, if_false]
  cases hs : (prpScript (promiseResolutionProcedure M t y).1 t rest true).2.2 with
  | none => simp [hs, hfst]
  | some e => simp [hs, hfst, hcal]

lemma prp_foreignFn_frej (M : Machine) (t : Nat) (b : Bool) (r : JVal)
    (rest : List (FKind × JVal)) :
    promiseResolutionProcedure M t (JVal.foreignFn b ((FKind.frej, r) :: rest)) =
      (rejectP M t r, JVal.undef) := by
  have hfst := prpScript_true_fst (rejectP M t r) t rest
  have hcal := prpScript_true_called (rejectP M t r) t rest
  simp only [promiseResolutionProcedure, prpScript, Bool.false_eq_true, if_false]
  cases hs : (prpScript (rejectP M t r) t rest true).2.2 with
  | none => simp [hs, hfst]
  | some e => simp [hs, hfst, hcal]

lemma prp_foreignFn_fthrow (M : Machine) (t : Nat) (b : Bool) (e : JVal)
    (rest : List (FKind × JVal)) :
    promiseResolutionProcedure M t (JVal.foreignFn b ((FKind.fthrow, e) :: rest)) =
      (rejectP M t e, JVal.undef) := by
  simp [promiseResolutionProcedure, prpScript]

lemma run_tasks_nil (n : Nat) (M : Machine) (h : M.tasks = []) : run n M = M := by
  induction n with
  | zero => rfl
  | succ n ih =>
      have hs : step M = M := by simp [step, h]
      simp [run, hs, ih]

lemma plainVal_not_promise {v : JVal} (h : plainVal v = true) :
    isPromiseV v = false := by
  cases v <;> first
    | rfl
    | simp [plainVal] at h

lemma thenOp_fulfilled_eq (M : Machine) (src : Nat) (hF hR : Option Handler)
    (h : (getP M src).status = Status.fulfilled) :
    thenOp M src hF hR =
      ({ M with
          heap := M.heap ++ [blankP],
          tasks := M.tasks ++ [⟨hF.getD Handler.ident, true, src, M.heap.length⟩] },
       M.heap.length) := by
  simp only [thenOp, newPromise]
  rw [getP_append_blank, h]

lemma thenOp_rejected_eq (M : Machine) (src : Nat) (hF hR : Option Handler)
    (h : (getP M src).status = Status.rejected) :
    thenOp M src hF hR =
      ({ M with
          heap := M.heap ++ [blankP],
          tasks := M.tasks ++ [⟨hR.getD Handler.rethrow, false, src, M.heap.length⟩] },
       M.heap.length) := by
  simp only [thenOp, newPromise]
  rw [getP_append_blank, h]

lemma getP_fresh_blank (N : Machine) (ts : List Task) :
    getP { N with heap := N.heap ++ [blankP], tasks := ts } N.heap.length = blankP := by
  simp [getP]

lemma deferred_then_step (N : Machine) (s2 : Nat) (v : JVal)
    (h1 : N.tasks = []) (h2 : (getP N s2).status = Status.fulfilled)
    (hv : plainVal v = true) :
    tripleOf (run 1 (thenOp N s2 (some (Handler.constH v)) none).1)
      (thenOp N s2 (some (Handler.constH v)) none).2 =
      (Status.fulfilled, v, JVal.nul) := by
  rw [thenOp_fulfilled_eq N s2 _ _ h2, h1]
  simp only [List.nil_append, run, step, runTask, evalHandler, Option.getD_some]
  rw [prp_plain _ _ hv]
  have hblank : getP { N with
      heap := N.heap ++ [blankP],
      tasks := ([] : List Task) } N.heap.length = blankP :=
    getP_fresh_blank N []
  have hpend : (getP { N with
      heap := N.heap ++ [blankP],
      tasks := ([] : List Task) } N.heap.length).status = Status.pending := by
    rw [hblank]
    rfl
  have hlen : N.heap.length < ({ N with
      heap := N.heap ++ [blankP],
      tasks := ([] : List Task) } : Machine).heap.length := by
    simp
  have hnp : isPromiseV v = false := plainVal_not_promise hv
  have hfin := getP_resolveP_self _ _ hnp hpend hlen
  show tripleOf (resolveP ({ N with
      heap := N.heap ++ [blankP],
      tasks := ([] : List Task) } : Machine) N.heap.length v).1 N.heap.length =
    (Status.fulfilled, v, JVal.nul)
  simp only [tripleOf]
  rw [hfin, hblank]
  rfl

lemma resolveP_fresh (N : Machine) (ts : List Task) (y : JVal)
    (hy : isPromiseV y = false) :
    tripleOf (resolveP { N with
        heap := N.heap ++ [blankP],
        tasks := ts } N.heap.length y).1 N.heap.length =
      (Status.fulfilled, y, JVal.nul) := by
  have hblank : getP { N with
      heap := N.heap ++ [blankP],
      tasks := ts } N.heap.length = blankP := getP_fresh_blank N ts
  have hpend : (getP { N with
      heap := N.heap ++ [blankP],
      tasks := ts } N.heap.length).status = Status.pending := by
    rw [hblank]
    rfl
  have hlen : N.heap.length < ({ N with
      heap := N.heap ++ [blankP],
      tasks := ts } : Machine).heap.length := by
    simp
  have hfin := getP_resolveP_self _ _ hy hpend hlen
  simp only [tripleOf]
  rw [hfin, hblank]
  rfl

/-! Claim theorems. -/

/-- C1: once a promise has transitioned from pending to fulfilled or
rejected, any subsequent invocation of either internal settlement capability
leaves its status, value and reason unchanged, and they stay unchanged under
any further execution of the deferred queue, so later calls (including from a
nested promise settling afterwards, whose continuations re-enter the same
capabilities through queued tasks) are observable no-ops. -/
theorem c1_single_settlement (M : Machine) (p : Nat) (v r : JVal) (n : Nat)
    (h : (getP M p).status ≠ Status.pending) :
    tripleOf (run n (resolveP M p v).1) p = tripleOf M p ∧
    tripleOf (run n (rejectP M p r)) p = tripleOf M p := by
  constructor
  · exact ((kept_resolveP M p v).trans (kept_run n _)) p h
  · exact ((kept_rejectP M p r).trans (kept_run n _)) p h

theorem c1_single_settlement_witness :
    (getP settledM 0).status ≠ Status.pending ∧
    (tripleOf (run 3 (resolveP settledM 0 (JVal.num 9)).1) 0 = tripleOf settledM 0 ∧
     tripleOf (run 3 (rejectP settledM 0 (JVal.str "late"))) 0 = tripleOf settledM 0) :=
  ⟨by decide, c1_single_settlement settledM 0 (JVal.num 9) (JVal.str "late") 3 (by decide)⟩

/-- C2: in the foreign-thenable branch of the resolution procedure, only the
first script action matters: every action after the first one (a later
invocation of either callback, or an exception the foreign then raises after
a callback already fired) changes nothing, and the first action alone
determines the outcome — the first rejection callback rejects the pending
target with its reason, the first resolution callback re-enters the
resolution procedure with its value, and an exception before any callback
rejects the target with that exception. -/
theorem c2_thenable_once_guard (M : Machine) (target : Nat) (b : Bool)
    (a : FKind × JVal) (rest : List (FKind × JVal)) (r y e : JVal)
    (hp : (getP M target).status = Status.pending)
    (hlen : target < M.heap.length) :
    promiseResolutionProcedure M target (JVal.foreignFn b (a :: rest)) =
      promiseResolutionProcedure M target (JVal.foreignFn b [a]) ∧
    promiseResolutionProcedure M target (JVal.foreignFn b [(FKind.frej, r)]) =
      (rejectP M target r, JVal.undef) ∧
    promiseResolutionProcedure M target (JVal.foreignFn b [(FKind.fres, y)]) =
      ((promiseResolutionProcedure M target y).1, JVal.undef) ∧
    promiseResolutionProcedure M target (JVal.foreignFn b [(FKind.fthrow, e)]) =
      (rejectP M target e, JVal.undef) ∧
    (getP (rejectP M target r) target).status = Status.rejected ∧
    (getP (rejectP M target r) target).reason = r := by
  refine ⟨?_, ?_, ?_, ?_, ?_, ?_⟩
  · obtain ⟨k, z⟩ := a
    cases k
    · rw [prp_foreignFn_fres, prp_foreignFn_fres]
    · rw [prp_foreignFn_frej, prp_foreignFn_frej]
    · rw [prp_foreignFn_fthrow, prp_foreignFn_fthrow]
  · exact prp_foreignFn_frej M target b r []
  · exact prp_foreignFn_fres M target b y []
  · exact prp_foreignFn_fthrow M target b e []
  · rw [getP_rejectP_self M target r hp hlen]
  · rw [getP_rejectP_self M target r hp hlen]

theorem c2_thenable_once_guard_witness :
    ((getP twoPendingM 0).status = Status.pending ∧ 0 < twoPendingM.heap.length) ∧
    promiseResolutionProcedure twoPendingM 0
        (JVal.foreignFn false [(FKind.frej, JVal.num 1), (FKind.fres, JVal.num 2),
          (FKind.fthrow, JVal.num 3)]) =
      promiseResolutionProcedure twoPendingM 0
        (JVal.foreignFn false [(FKind.frej, JVal.num 1)]) ∧
    (getP (rejectP twoPendingM 0 (JVal.num 1)) 0).status = Status.rejected :=
  ⟨⟨by decide, by decide⟩,
    by
      have h := c2_thenable_once_guard twoPendingM 0 false (FKind.frej, JVal.num 1)
        [(FKind.fres, JVal.num 2), (FKind.fthrow, JVal.num 3)]
        (JVal.num 1) JVal.undef JVal.undef (by decide) (by decide)
      exact h.1,
    by
      have h := c2_thenable_once_guard twoPendingM 0 false (FKind.frej, JVal.num 1)
        [] (JVal.num 1) JVal.undef JVal.undef (by decide) (by decide)
      rw [h.2.2.2.2.1]⟩

/-- C3: resolving a target promise with itself runs the self-reference branch
of the resolution procedure, which rejects the target with the cyclic
resolution TypeError and does nothing else: the whole call equals the one
reject-capability invocation, and on a pending target the status becomes
rejected with that TypeError as reason while the stored value is untouched. -/
theorem c3_self_resolution (M : Machine) (p : Nat)
    (hp : (getP M p).status = Status.pending) (hlen : p < M.heap.length) :
    promiseResolutionProcedure M p (JVal.promise p) =
      (rejectP M p (JVal.tyErr selfResolutionMsg), JVal.undef) ∧
    (getP (rejectP M p (JVal.tyErr selfResolutionMsg)) p).status = Status.rejected ∧
    (getP (rejectP M p (JVal.tyErr selfResolutionMsg)) p).reason =
      JVal.tyErr selfResolutionMsg ∧
    (getP (rejectP M p (JVal.tyErr selfResolutionMsg)) p).value = (getP M p).value := by
  refine ⟨prp_self M p, ?_, ?_, ?_⟩ <;>
    rw [getP_rejectP_self M p _ hp hlen]

theorem c3_self_resolution_witness :
    ((getP twoPendingM 1).status = Status.pending ∧ 1 < twoPendingM.heap.length) ∧
    promiseResolutionProcedure twoPendingM 1 (JVal.promise 1) =
      (rejectP twoPendingM 1 (JVal.tyErr selfResolutionMsg), JVal.undef) ∧
    (getP (rejectP twoPendingM 1 (JVal.tyErr selfResolutionMsg)) 1).status =
      Status.rejected :=
  ⟨⟨by decide, by decide⟩,
    (c3_self_resolution twoPendingM 1 (by decide) (by decide)).1,
    (c3_self_resolution twoPendingM 1 (by decide) (by decide)).2.1⟩

/-- C4: handlers passed to then are never run synchronously.  A then call
changes no status, value or reason of any promise, leaves the dependent
promise pending, and only schedules: on a settled source it appends exactly
one task carrying the handler to the deferred queue, and on a pending source
it appends the handler pair to the callback registries instead and the queue
is untouched.  A settlement call likewise touches no promise other than the
one being settled, so registered handlers are not run inside it either.  The
handler then runs through the deferred queue: on an already fulfilled source
with an idle queue, one scheduler step later the dependent promise is settled
with the handler outcome. -/
theorem c4_then_deferred (N : Machine) (s2 : Nat) (v : JVal)
    (h1 : N.tasks = []) (h2 : (getP N s2).status = Status.fulfilled)
    (hv : plainVal v = true) :
    (∀ (M : Machine) (src : Nat) (hF hR : Option Handler) (p : Nat),
      tripleOf (thenOp M src hF hR).1 p = tripleOf M p) ∧
    (∀ (M : Machine) (src : Nat) (hF hR : Option Handler),
      (getP (thenOp M src hF hR).1 (thenOp M src hF hR).2).status = Status.pending) ∧
    (∀ (M : Machine) (src : Nat) (hF hR : Option Handler),
      (thenOp M src hF hR).1.tasks = M.tasks ++
        (match (getP M src).status with
         | Status.fulfilled => [⟨hF.getD Handler.ident, true, src, M.heap.length⟩]
         | Status.rejected => [⟨hR.getD Handler.rethrow, false, src, M.heap.length⟩]
         | Status.pending => [])) ∧
    (∀ (M : Machine) (src : Nat) (hF hR : Option Handler), src < M.heap.length →
      (getP M src).status = Status.pending →
      (thenOp M src hF hR).1.tasks = M.tasks ∧
      (getP (thenOp M src hF hR).1 src).onFulfilledCbs =
        (getP M src).onFulfilledCbs ++
          [⟨hF.getD Handler.ident, true, src, M.heap.length⟩] ∧
      (getP (thenOp M src hF hR).1 src).onRejectedCbs =
        (getP M src).onRejectedCbs ++
          [⟨hR.getD Handler.rethrow, false, src, M.heap.length⟩]) ∧
    (∀ (M : Machine) (p : Nat) (w : JVal) (q : Nat), q ≠ p →
      tripleOf (resolveP M p w).1 q = tripleOf M q ∧
      tripleOf (rejectP M p w) q = tripleOf M q) ∧
    tripleOf (run 1 (thenOp N s2 (some (Handler.constH v)) none).1)
      (thenOp N s2 (some (Handler.constH v)) none).2 =
      (Status.fulfilled, v, JVal.nul) := by
  refine ⟨fun M src hF hR p => tripleOf_thenOp M src hF hR p, ?_, ?_, ?_, ?_, ?_⟩
  · intro M src hF hR
    rw [thenOp_snd]
    have hM : (getP M M.heap.length).status = Status.pending := by
      simp [getP, List.getElem?_eq_none (Nat.le_refl M.heap.length), blankP]
    have h := congrArg Prod.fst (tripleOf_thenOp M src hF hR M.heap.length)
    simp only [tripleOf] at h
    rw [h, hM]
  · intro M src hF hR
    exact thenOp_tasks M src hF hR
  · intro M src hF hR hlen hpend
    refine ⟨?_, ?_, ?_⟩
    · rw [thenOp_tasks, hpend]
      simp
    · rw [(thenOp_pending_cbs M src hF hR hlen).1, hpend]
    · rw [(thenOp_pending_cbs M src hF hR hlen).2, hpend]
  · intro M p w q hq
    exact ⟨tripleOf_resolveP_ne M p w q hq, tripleOf_rejectP_ne M p w q hq⟩
  · exact deferred_then_step N s2 v h1 h2 hv

theorem c4_then_deferred_witness :
    (settledM.tasks = [] ∧ (getP settledM 0).status = Status.fulfilled ∧
      plainVal (JVal.num 5) = true) ∧
    tripleOf (run 1 (thenOp settledM 0 (some (Handler.constH (JVal.num 5))) none).1)
      (thenOp settledM 0 (some (Handler.constH (JVal.num 5))) none).2 =
      (Status.fulfilled, JVal.num 5, JVal.nul) :=
  ⟨⟨rfl, by decide, by decide⟩,
    (c4_then_deferred settledM 0 (JVal.num 5) rfl (by decide)
      (by decide)).2.2.2.2.2⟩

set_option maxHeartbeats 16000000 in
/-- C5: in all(), results sit at their original indices no matter in which
order the inputs settle, the combined promise fulfills only after every slot
has reported, and a rejection of any input rejects the combined promise with
that reason at once, later results being ignored.  Scenario: over two pending
promises, all([slow, 1, fast]) stays pending after only the fast input and the
plain element have reported, and fulfills with the results in input order
once the slow input settles; all([first, second]) rejects with the reason of
the first rejection and stays so even after the other input later fulfills. -/
theorem c5_all_order_and_rejection (na nb : Int) (r : JVal) :
    (allStatic twoPendingM
      (JVal.arr [JVal.promise 0, JVal.num 1, JVal.promise 1])).2 = JVal.promise 2 ∧
    tripleOf
      (run 1 (resolveP
        (allStatic twoPendingM
          (JVal.arr [JVal.promise 0, JVal.num 1, JVal.promise 1])).1
        1 (JVal.num nb)).1) 2 = (Status.pending, JVal.nul, JVal.nul) ∧
    tripleOf
      (run 2 (resolveP
        (run 1 (resolveP
          (allStatic twoPendingM
            (JVal.arr [JVal.promise 0, JVal.num 1, JVal.promise 1])).1
          1 (JVal.num nb)).1)
        0 (JVal.num na)).1) 2 =
      (Status.fulfilled, JVal.arr [JVal.num na, JVal.num 1, JVal.num nb], JVal.nul) ∧
    (allStatic twoPendingM
      (JVal.arr [JVal.promise 0, JVal.promise 1])).2 = JVal.promise 2 ∧
    tripleOf
      (run 1 (rejectP
        (allStatic twoPendingM (JVal.arr [JVal.promise 0, JVal.promise 1])).1
        0 r)) 2 = (Status.rejected, JVal.nul, r) ∧
    tripleOf
      (run 2 (resolveP
        (run 1 (rejectP
          (allStatic twoPendingM (JVal.arr [JVal.promise 0, JVal.promise 1])).1
          0 r))
        1 (JVal.num nb)).1) 2 = (Status.rejected, JVal.nul, r) := by
  refine ⟨?_, ?_, ?_, ?_, ?_, ?_⟩ <;>
    simp [allStatic, allLoop, processRes, resolveP, rejectP, thenOp, newPromise,
      getP, setP, isIterable, toElems, twoPendingM, blankP, List.getD, run,
      step, runTask, evalHandler, promiseResolutionProcedure, prpScript,
      tripleOf]

set_option maxHeartbeats 16000000 in
/-- C6: race() settles with the outcome of the first element of the input
and never consults a later element: for every machine and elements, race on
a list equals race on its first element alone; a plain first element
fulfills the returned promise with itself; a first element that is an
already fulfilled promise hands its value to the returned promise one
scheduler step later, and an already rejected one hands over its reason. -/
theorem c6_race_first_element (n : Int) (rest : List JVal) :
    (∀ (N : Machine) (x : JVal) (xs : List JVal),
      raceStatic N (JVal.arr (x :: xs)) = raceStatic N (JVal.arr [x])) ∧
    tripleOf (raceStatic emptyM (JVal.arr (JVal.num n :: rest))).1 0 =
      (Status.fulfilled, JVal.num n, JVal.nul) ∧
    tripleOf (run 1 (raceStatic settledM (JVal.arr (JVal.promise 0 :: rest))).1) 1 =
      (Status.fulfilled, JVal.num 7, JVal.nul) ∧
    tripleOf (run 1 (raceStatic rejectedM (JVal.arr (JVal.promise 0 :: rest))).1) 1 =
      (Status.rejected, JVal.nul, JVal.str "nope") := by
  refine ⟨?_, rfl, rfl, rfl⟩
  intro N x xs
  cases x <;> rfl

set_option maxHeartbeats 16000000 in
/-- C7: allSettled() fulfills with one settled-outcome record per input in
input order even when an input rejects: over a promise rejected with any
reason and a plain value, it returns a promise that, after the queue drains,
is fulfilled (not rejected) with the records in input order. -/
theorem c7_allSettled_records (nv : Int) (r : JVal) :
    (allSettledStatic (⟨[⟨Status.rejected, JVal.nul, r, [], []⟩], [], []⟩ : Machine)
      (JVal.arr [JVal.promise 0, JVal.num nv])).2 = Except.ok (JVal.promise 4) ∧
    tripleOf
      (run 4 (allSettledStatic
        (⟨[⟨Status.rejected, JVal.nul, r, [], []⟩], [], []⟩ : Machine)
        (JVal.arr [JVal.promise 0, JVal.num nv])).1) 4 =
      (Status.fulfilled,
        JVal.arr [JVal.sRecord Status.rejected r,
          JVal.sRecord Status.fulfilled (JVal.num nv)],
        JVal.nul) := by
  constructor
  · simp [allSettledStatic, allSettledLoop, resolveStatic, thenOp, newPromise,
      getP, setP, allStatic, allLoop, processRes, resolveP, rejectP, isIterable,
      toElems, blankP, List.getD]
  · simp [allSettledStatic, allSettledLoop, resolveStatic, thenOp, newPromise,
      getP, setP, allStatic, allLoop, processRes, resolveP, rejectP, isIterable,
      toElems, run, step, runTask, evalHandler, promiseResolutionProcedure,
      prpScript, tripleOf, blankP, List.getD]

/-- C10: race() on an empty iterable passes the iterability check, creates a
promise and returns it without invoking either capability: the machine gains
one blank pending cell and nothing else changes, and on the empty machine
that promise is still pending with empty registries after any number of
scheduler steps. -/
theorem c10_race_empty_never_settles (M : Machine) (n : Nat) :
    raceStatic M (JVal.arr []) =
      ({ M with heap := M.heap ++ [blankP] }, JVal.promise M.heap.length) ∧
    tripleOf (run n (raceStatic emptyM (JVal.arr [])).1) 0 =
      (Status.pending, JVal.nul, JVal.nul) := by
  constructor
  · rfl
  · have ht : (raceStatic emptyM (JVal.arr [])).1.tasks = [] := rfl
    rw [run_tasks_nil n _ ht]
    rfl

/-- C8 counterexample: static resolve applied to a callable foreign thenable
(a function whose then member is callable and would call its first callback
with 42) is NOT driven to completion by that then member: the typeof object
test fails for a function, so resolve returns a promise fulfilled with the
thenable object itself, not with 42 — while the identical script exposed by
a plain object thenable does yield a promise fulfilled with 42. -/
theorem c8_counterexample :
    (resolveStatic emptyM fnThenable).2 = Except.ok 0 ∧
    tripleOf (resolveStatic emptyM fnThenable).1 0 =
      (Status.fulfilled, fnThenable, JVal.nul) ∧
    fnThenable ≠ JVal.num 42 ∧
    tripleOf
      (resolveStatic emptyM (JVal.foreignFn false [(FKind.fres, JVal.num 42)])).1 0 =
      (Status.fulfilled, JVal.num 42, JVal.nul) := by
  refine ⟨rfl, rfl, ?_, rfl⟩
  intro h
  exact JVal.noConfusion h

/-- C8 amended: thenable interoperability holds for object thenables
everywhere and for function thenables inside the resolution procedure, but
not in static resolve: static resolve wraps an object thenable in a new
promise driven by its then member; the resolution procedure drives a
thenable with a callable then member whether the carrier is an object or a
function; static resolve applied to a function thenable instead returns a
promise fulfilled with the function itself. -/
theorem c8_thenable_interop_amended (M : Machine) (y : JVal) (b : Bool)
    (script : List (FKind × JVal)) (t : Nat)
    (hy : plainVal y = true) (hp : (getP M t).status = Status.pending)
    (hlen : t < M.heap.length) :
    (resolveStatic M (JVal.foreignFn false [(FKind.fres, y)])).2 =
      Except.ok M.heap.length ∧
    tripleOf (resolveStatic M (JVal.foreignFn false [(FKind.fres, y)])).1
      M.heap.length = (Status.fulfilled, y, JVal.nul) ∧
    (getP (promiseResolutionProcedure M t
      (JVal.foreignFn b [(FKind.fres, y)])).1 t).status = Status.fulfilled ∧
    (getP (promiseResolutionProcedure M t
      (JVal.foreignFn b [(FKind.fres, y)])).1 t).value = y ∧
    (resolveStatic M (JVal.foreignFn true script)).2 = Except.ok M.heap.length ∧
    tripleOf (resolveStatic M (JVal.foreignFn true script)).1 M.heap.length =
      (Status.fulfilled, JVal.foreignFn true script, JVal.nul) := by
  have hnp : isPromiseV y = false := plainVal_not_promise hy
  have hprp : promiseResolutionProcedure M t (JVal.foreignFn b [(FKind.fres, y)]) =
      ((resolveP M t y).1, JVal.undef) := by
    rw [prp_foreignFn_fres, prp_plain _ _ hy]
  have hself := getP_resolveP_self _ _ hnp hp hlen
  refine ⟨rfl, ?_, ?_, ?_, rfl, ?_⟩
  · exact resolveP_fresh M M.tasks y hnp
  · rw [hprp]
    show (getP (resolveP M t y).1 t).status = Status.fulfilled
    rw [hself]
  · rw [hprp]
    show (getP (resolveP M t y).1 t).value = y
    rw [hself]
  · exact resolveP_fresh M M.tasks (JVal.foreignFn true script) (Eq.refl _)

theorem c8_thenable_interop_amended_witness :
    (plainVal (JVal.num 42) = true ∧
      (getP twoPendingM 0).status = Status.pending ∧ 0 < twoPendingM.heap.length) ∧
    tripleOf (resolveStatic twoPendingM
      (JVal.foreignFn false [(FKind.fres, JVal.num 42)])).1
      twoPendingM.heap.length = (Status.fulfilled, JVal.num 42, JVal.nul) ∧
    (getP (promiseResolutionProcedure twoPendingM 0
      (JVal.foreignFn true [(FKind.fres, JVal.num 42)])).1 0).value = JVal.num 42 :=
  ⟨⟨by decide, by decide, by decide⟩,
    (c8_thenable_interop_amended twoPendingM (JVal.num 42) true [] 0
      (by decide) (by decide) (by decide)).2.1,
    (c8_thenable_interop_amended twoPendingM (JVal.num 42) true [] 0
      (by decide) (by decide) (by decide)).2.2.2.1⟩

/-- C9: every combinator given a non-iterable input returns the TypeError
value synchronously with the machine unchanged — no promise is created, so
the error does not arrive as a rejected future (the returned value is not a
promise reference at all). -/
theorem c9_not_iterable_sync (M : Machine) (v : JVal)
    (h : isIterable v = false) :
    allStatic M v = (M, notIterableErr v) ∧
    raceStatic M v = (M, notIterableErr v) ∧
    allSettledStatic M v = (M, Except.ok (notIterableErr v)) ∧
    isPromiseV (notIterableErr v) = false := by
  refine ⟨?_, ?_, ?_, rfl⟩ <;>
    simp [allStatic, raceStatic, allSettledStatic, h]

theorem c9_not_iterable_sync_witness :
    isIterable (JVal.num 3) = false ∧
    allStatic emptyM (JVal.num 3) = (emptyM, notIterableErr (JVal.num 3)) ∧
    raceStatic emptyM (JVal.num 3) = (emptyM, notIterableErr (JVal.num 3)) :=
  ⟨by decide, (c9_not_iterable_sync emptyM (JVal.num 3) (by decide)).1,
    (c9_not_iterable_sync emptyM (JVal.num 3) (by decide)).2.1⟩

end PromiseSpec
